import Mathlib

/-!
Shallow embedding of `src/main.rs` — a naive x86-64 code generator for
expressions in reverse polish form — together with theorems settling the
specification claims.

Modelling conventions:

* The Rust `Vec<Location>` evaluation stack is a `List Location` whose HEAD
  is the TOP of the stack (the most recently pushed entry): `Vec::push` is
  list cons, `Vec::pop` takes the head, and Rust index `len - 1` is the head.
* `println!` emission is modelled by returning the list of emitted lines in
  order; a `panic!` or failed `assert!` is modelled as `none`, paired with
  the lines that were already printed before the failure.
* Body instructions are an inductive `Instr`; `Instr.render` produces the
  exact text the corresponding `println!` prints.  Prologue/epilogue framing
  lines are plain strings.
* The Rust `HashSet<char>` symbol set is modelled by its contents as a
  duplicate-free list in first-insertion order (`insertSym`).  `HashSet`
  iteration order is unspecified (randomized per process), so
  `CodeGen.epilogue` and `compile` take the iteration order as an extra
  parameter `order`; theorems constrain it to be a permutation of the
  set's contents, which is all the `HashSet` contract guarantees.
* Machine integers: register contents are `Nat`, reduced modulo `2 ^ 32`
  at every write, mirroring `u32`/32-bit register semantics.
-/

/-- Operand flavors (`enum Operand`, lines 65-69). -/
inductive Operand where
  | Integer (n : Nat)
  | Variable (v : Char)
deriving DecidableEq, Repr

/-- Operand location (`enum Location`, lines 57-62). -/
inductive Location where
  | OnOperandStack (o : Operand)
  | InAccumulator
  | OnCpuStack
deriving DecidableEq, Repr

/-- Code generator state (`struct CodeGen`, lines 49-54): the evaluation
stack (head = top) and the symbol set as an insertion-ordered
duplicate-free list. -/
structure CodeGen where
  stack : List Location
  symbols : List Char
deriving DecidableEq, Repr

/-- A textual instruction source operand: immediate, memory reference, or
the scratch register.  The strings handed to the `emit_binop` closures in
the Rust code are exactly the renderings of these. -/
inductive Src where
  | imm (n : Nat)
  | mem (v : Char)
  | ebx
deriving DecidableEq, Repr

/-- Rendering of `Src`: `impl fmt::Display for Operand` (lines 71-78) for
the first two constructors, plus the literal string `"ebx"`. -/
def Src.text : Src → String
  | .imm n => toString n
  | .mem v => "[rel " ++ String.singleton v ++ "]"
  | .ebx => "ebx"

/-- View of an operand as an instruction source operand. -/
def Operand.src : Operand → Src
  | .Integer n => .imm n
  | .Variable v => .mem v

/-- Emitted body instructions, one constructor per `println!` form in
`main.rs` (the `ret` and section/label framing lines stay plain strings). -/
inductive Instr where
  | movEaxSrc (s : Src)
  | movEbxSrc (s : Src)
  | movEbxEax
  | addEax (s : Src)
  | subEax (s : Src)
  | mulEbx
  | pushRax
  | popRbx
  | store (v : Char)
deriving DecidableEq, Repr

/-- Exact text printed for each instruction. -/
def Instr.render : Instr → String
  | .movEaxSrc s => "\tmov eax, " ++ s.text
  | .movEbxSrc s => "\tmov ebx, " ++ s.text
  | .movEbxEax => "\tmov ebx, eax"
  | .addEax s => "\tadd eax, " ++ s.text
  | .subEax s => "\tsub eax, " ++ s.text
  | .mulEbx => "\tmul ebx"
  | .pushRax => "\tpush rax"
  | .popRbx => "\tpop rbx"
  | .store v => "\tmov dword [rel " ++ String.singleton v ++ "], eax"

/-- The closure passed by `CodeGen::add` (line 127). -/
def emitAdd (s : Src) : List Instr := [.addEax s]

/-- The closure passed by `CodeGen::sub` (line 131). -/
def emitSub (s : Src) : List Instr := [.subEax s]

/-- The closure passed by `CodeGen::mul` (lines 135-138). -/
def emitMul (s : Src) : List Instr := [.movEbxSrc s, .mulEbx]

/-- Is this entry `InAccumulator`? -/
def Location.isAcc : Location → Bool
  | .InAccumulator => true
  | _ => false

/-- No entry of the list is `InAccumulator`. -/
def noAcc (s : List Location) : Bool := s.all fun l => !l.isAcc

/-- Rust `CodeGen::new` (lines 81-86). -/
def CodeGen.new : CodeGen := { stack := [], symbols := [] }

/-- The spill scan of `prepare_binop` over the remaining stack
(lines 192-206): an `InAccumulator` entry anywhere but the top of the
remainder (Rust index `len - 1`, our head) is a panic — the Rust loop runs
bottom-up, so it panics before printing anything in that case; an
`InAccumulator` at the top is pushed onto the native stack and rewritten
to `OnCpuStack`; all other entries are left untouched. -/
def spill : List Location → Option (List Location × List Instr)
  | [] => some ([], [])
  | .InAccumulator :: t =>
      if noAcc t then some (.OnCpuStack :: t, [.pushRax]) else none
  | .OnOperandStack o :: t =>
      if noAcc t then some (.OnOperandStack o :: t, []) else none
  | .OnCpuStack :: t =>
      if noAcc t then some (.OnCpuStack :: t, []) else none

/-- Rust `CodeGen::prepare_binop` (lines 185-209): pop `rhs` then `lhs` — fatal
(without output) if fewer than two entries exist — then run the spill scan
on the remainder. -/
def CodeGen.prepare_binop (cg : CodeGen) :
    Option (Location × Location × CodeGen × List Instr) :=
  match cg.stack with
  | rhs :: lhs :: rest =>
      match spill rest with
      | some (rest2, out) => some (lhs, rhs, { cg with stack := rest2 }, out)
      | none => none
  | _ => none

/-- Rust `CodeGen::rvalue_binop` (lines 157-182): the four supported
location-shape cases, each pushing `InAccumulator`; any other shape is a
panic (after the spill output was already printed). -/
def CodeGen.rvalue_binop (emit : Src → List Instr) (cg : CodeGen) :
    List Instr × Option CodeGen :=
  match cg.prepare_binop with
  | none => ([], none)
  | some (lhs, rhs, cg2, out0) =>
      match lhs, rhs with
      | .OnOperandStack l, .OnOperandStack r =>
          (out0 ++ .movEaxSrc l.src :: emit r.src,
            some { cg2 with stack := .InAccumulator :: cg2.stack })
      | .OnOperandStack l, .InAccumulator =>
          (out0 ++ .movEbxEax :: .movEaxSrc l.src :: emit .ebx,
            some { cg2 with stack := .InAccumulator :: cg2.stack })
      | .InAccumulator, .OnOperandStack r =>
          (out0 ++ emit r.src,
            some { cg2 with stack := .InAccumulator :: cg2.stack })
      | .OnCpuStack, .InAccumulator =>
          (out0 ++ .popRbx :: emit .ebx,
            some { cg2 with stack := .InAccumulator :: cg2.stack })
      | _, _ => (out0, none)

/-- Rust `CodeGen::add` (lines 126-128). -/
def CodeGen.add (cg : CodeGen) : List Instr × Option CodeGen :=
  cg.rvalue_binop emitAdd

/-- Rust `CodeGen::sub` (lines 130-132). -/
def CodeGen.sub (cg : CodeGen) : List Instr × Option CodeGen :=
  cg.rvalue_binop emitSub

/-- Rust `CodeGen::mul` (lines 134-139). -/
def CodeGen.mul (cg : CodeGen) : List Instr × Option CodeGen :=
  cg.rvalue_binop emitMul

/-- Rust `CodeGen::assign` (lines 141-154): `lhs` must be a variable operand;
`rhs` may be an operand (load then store) or the accumulator (store
directly); anything else panics after the spill output. -/
def CodeGen.assign (cg : CodeGen) : List Instr × Option CodeGen :=
  match cg.prepare_binop with
  | none => ([], none)
  | some (lhs, rhs, cg2, out0) =>
      match lhs, rhs with
      | .OnOperandStack (.Variable v), .OnOperandStack r =>
          (out0 ++ [.movEaxSrc r.src, .store v],
            some { cg2 with stack := .InAccumulator :: cg2.stack })
      | .OnOperandStack (.Variable v), .InAccumulator =>
          (out0 ++ [.store v],
            some { cg2 with stack := .InAccumulator :: cg2.stack })
      | _, _ => (out0, none)

/-- Rust `CodeGen::end_of_expr` (lines 106-113): pop the top entry; an operand
is loaded into `eax` (printed before the final assert, so that line is
emitted even when the assert then fails), `OnCpuStack` is the "unbalanced
stack" panic, `InAccumulator` and an empty stack emit nothing; finally
`assert_eq!(self.stack.len(), 0)` requires the remainder to be empty. -/
def CodeGen.end_of_expr (cg : CodeGen) : List Instr × Option CodeGen :=
  match cg.stack with
  | .OnOperandStack o :: rest =>
      ([.movEaxSrc o.src],
        match rest with
        | [] => some { cg with stack := [] }
        | _ :: _ => none)
  | .OnCpuStack :: _ => ([], none)
  | .InAccumulator :: rest =>
      ([],
        match rest with
        | [] => some { cg with stack := [] }
        | _ :: _ => none)
  | [] => ([], some cg)

/-- Rust `CodeGen::number` (lines 115-118). -/
def CodeGen.number (cg : CodeGen) (n : Nat) : CodeGen :=
  { cg with stack := .OnOperandStack (.Integer n) :: cg.stack }

/-- Rust `HashSet::insert` on the symbol set, modelled on its contents as a
duplicate-free list in first-insertion order. -/
def insertSym (s : List Char) (v : Char) : List Char :=
  if v ∈ s then s else s ++ [v]

/-- Rust `CodeGen::variable` (lines 120-124); `variable` is a Lean keyword,
hence the primed name. -/
def CodeGen.variable' (cg : CodeGen) (v : Char) : CodeGen :=
  { stack := .OnOperandStack (.Variable v) :: cg.stack,
    symbols := insertSym cg.symbols v }

/-- The three lines printed by `CodeGen::prologue` (lines 88-92). -/
def prologueLines : List String :=
  ["global _evaluate", "section .text", "_evaluate:"]

/-- The storage declaration line printed for symbol `v` (line 101). -/
def declLine (v : Char) : String := String.singleton v ++ ": dd 0"

/-- Rust `CodeGen::epilogue` (lines 94-104): one more `end_of_expr`, the `ret`
line, then — if the symbol set is non-empty — the data section, iterating
the `HashSet` in the unspecified order `order`. -/
def CodeGen.epilogue (cg : CodeGen) (order : List Char) : List String × Bool :=
  match cg.end_of_expr with
  | (out, none) => (out.map Instr.render, false)
  | (out, some cg2) =>
      (out.map Instr.render ++ ["\tret"] ++
        (if cg2.symbols.length > 0 then "section .data" :: order.map declLine
         else []),
        true)

/-- Rust range `'0'..='9'` (code points 48-57). -/
def isDigitCh (c : Char) : Bool := 48 ≤ c.toNat && c.toNat ≤ 57

/-- Rust ranges `'a'..='z' | 'A'..='Z'` (code points 97-122 and 65-90). -/
def isLetterCh (c : Char) : Bool :=
  (97 ≤ c.toNat && c.toNat ≤ 122) || (65 ≤ c.toNat && c.toNat ≤ 90)

/-- Digit value: `ch.to_digit(10).unwrap()` for `'0'..='9'`. -/
def charVal (c : Char) : Nat := c.toNat - 48

/-- The per-character dispatch in `compile`'s loop (lines 32-43); an
unrecognized character is the "unexpected input" panic. -/
def step (cg : CodeGen) (c : Char) : List Instr × Option CodeGen :=
  if isDigitCh c then ([], some (cg.number (charVal c)))
  else if isLetterCh c then ([], some (cg.variable' c))
  else if c = '+' then cg.add
  else if c = '-' then cg.sub
  else if c = '*' then cg.mul
  else if c = ';' then cg.end_of_expr
  else if c = '=' then cg.assign
  else ([], none)

/-- Folding `step` over the input, concatenating emitted instructions and
stopping at the first failure (a Rust `panic!` aborts the process, so
nothing after the failing character runs or prints). -/
def runChars (cg : CodeGen) : List Char → List Instr × Option CodeGen
  | [] => ([], some cg)
  | c :: cs =>
      match step cg c with
      | (out, none) => (out, none)
      | (out, some cg2) =>
          match runChars cg2 cs with
          | (out2, r) => (out ++ out2, r)

/-- Rust `compile` (lines 29-45): prologue, per-character dispatch, epilogue.
`order` is the `HashSet` iteration order used by the epilogue.  The `Bool`
is `false` exactly when the Rust program would panic, and the `List String`
holds every line printed up to that point (stdout is not rolled back by a
panic). -/
def compile (input : List Char) (order : List Char) : List String × Bool :=
  match runChars CodeGen.new input with
  | (out, none) => (prologueLines ++ out.map Instr.render, false)
  | (out, some cg) =>
      match cg.epilogue order with
      | (out2, ok) => (prologueLines ++ out.map Instr.render ++ out2, ok)

/-- Word size modulus for the 32-bit registers: `2 ^ 32`. -/
def two32 : Nat := 4294967296

/-- Machine state for interpreting emitted body instructions: the
accumulator `eax`, the scratch register `ebx`, the native stack
(`push rax` / `pop rbx`), and the variables' memory cells as an
association list (absent cells read 0, as `dd 0` declares). -/
structure Machine where
  eax : Nat
  ebx : Nat
  natStack : List Nat
  mem : List (Char × Nat)
deriving DecidableEq, Repr

/-- Reading a source operand. -/
def Machine.read (m : Machine) : Src → Nat
  | .imm n => n
  | .mem v => (m.mem.lookup v).getD 0
  | .ebx => m.ebx

/-- One instruction of x86 semantics, restricted to the forms the
generator emits.  `pop` on an empty native stack is undefined behaviour
for this model (`none`). -/
def execInstr (m : Machine) : Instr → Option Machine
  | .movEaxSrc s => some { m with eax := m.read s % two32 }
  | .movEbxSrc s => some { m with ebx := m.read s % two32 }
  | .movEbxEax => some { m with ebx := m.eax }
  | .addEax s => some { m with eax := (m.eax + m.read s) % two32 }
  | .subEax s => some { m with eax := (m.eax + (two32 - m.read s % two32)) % two32 }
  | .mulEbx => some { m with eax := (m.eax * m.ebx) % two32 }
  | .pushRax => some { m with natStack := m.eax :: m.natStack }
  | .popRbx =>
      match m.natStack with
      | n :: rest => some { m with ebx := n, natStack := rest }
      | [] => none
  | .store v => some { m with mem := (v, m.eax) :: m.mem }

/-- Executing a list of instructions. -/
def execList (m : Machine) : List Instr → Option Machine
  | [] => some m
  | i :: is =>
      match execInstr m i with
      | some m2 => execList m2 is
      | none => none

/-- Number of `InAccumulator` entries in a stack. -/
def countAcc (s : List Location) : Nat := s.countP fun l => l.isAcc

/-- Invariant I1 exactly as the spec states it: at most one entry of the
whole stack is `InAccumulator`, and if such an entry exists it is the last
(most recently pushed, i.e. head) entry. -/
def I1spec (s : List Location) : Prop :=
  countAcc s ≤ 1 ∧
    (Location.InAccumulator ∈ s → s.head? = some Location.InAccumulator)

/-- The invariant actually maintained by the code: scanning from the top,
a prefix of `OnOperandStack` entries, then at most one `InAccumulator`,
with no `InAccumulator` anywhere below it. -/
def goodStack : List Location → Bool
  | [] => true
  | .OnOperandStack _ :: t => goodStack t
  | .InAccumulator :: t => noAcc t
  | .OnCpuStack :: t => noAcc t

/-! ### Helper lemmas about the stack discipline -/

theorem noAcc_cons {l : Location} {t : List Location} :
    noAcc (l :: t) = (!l.isAcc && noAcc t) := by
  simp [noAcc]

theorem spill_spec {s s2 : List Location} {out : List Instr}
    (h : spill s = some (s2, out)) :
    noAcc s2 = true ∧ s2.length = s.length := by
  cases s with
  | nil =>
      simp [spill] at h
      obtain ⟨rfl, rfl⟩ := h
      exact ⟨rfl, rfl⟩
  | cons l t =>
      cases l <;> simp [spill] at h <;>
        obtain ⟨hn, rfl, rfl⟩ := h <;>
        simp [noAcc_cons, hn, Location.isAcc]

theorem prepare_binop_spec {cg : CodeGen} {lhs rhs : Location} {cg2 : CodeGen}
    {out : List Instr}
    (h : cg.prepare_binop = some (lhs, rhs, cg2, out)) :
    noAcc cg2.stack = true ∧ cg2.stack.length + 2 = cg.stack.length ∧
      cg2.symbols = cg.symbols := by
  unfold CodeGen.prepare_binop at h
  split at h
  case h_1 a b rest heq =>
    cases hsp : spill rest with
    | none => rw [hsp] at h; cases h
    | some p =>
        obtain ⟨rest2, out0⟩ := p
        rw [hsp] at h
        simp only [Option.some.injEq, Prod.mk.injEq] at h
        obtain ⟨rfl, rfl, hcg2, rfl⟩ := h
        obtain ⟨hna, hlen⟩ := spill_spec hsp
        subst hcg2
        exact ⟨hna, by simp [heq, hlen], rfl⟩
  case h_2 => cases h

theorem rvalue_binop_spec {emit : Src → List Instr} {cg cg' : CodeGen}
    {out : List Instr}
    (h : cg.rvalue_binop emit = (out, some cg')) :
    ∃ rest2, cg'.stack = Location.InAccumulator :: rest2 ∧
      noAcc rest2 = true ∧ rest2.length + 2 = cg.stack.length ∧
      cg'.symbols = cg.symbols := by
  unfold CodeGen.rvalue_binop at h
  cases hp : cg.prepare_binop with
  | none => rw [hp] at h; simp at h
  | some q =>
      obtain ⟨lhs, rhs, cg2, out0⟩ := q
      rw [hp] at h
      obtain ⟨hna, hlen, hsym⟩ := prepare_binop_spec hp
      cases lhs <;> cases rhs <;> simp at h <;>
        first
        | (obtain ⟨-, hcg'⟩ := h
           subst hcg'
           exact ⟨cg2.stack, rfl, hna, hlen, hsym⟩)
        | skip

theorem assign_spec {cg cg' : CodeGen} {out : List Instr}
    (h : cg.assign = (out, some cg')) :
    ∃ rest2, cg'.stack = Location.InAccumulator :: rest2 ∧
      noAcc rest2 = true ∧ rest2.length + 2 = cg.stack.length ∧
      cg'.symbols = cg.symbols := by
  unfold CodeGen.assign at h
  cases hp : cg.prepare_binop with
  | none => rw [hp] at h; simp at h
  | some q =>
      obtain ⟨lhs, rhs, cg2, out0⟩ := q
      rw [hp] at h
      obtain ⟨hna, hlen, hsym⟩ := prepare_binop_spec hp
      cases lhs with
      | OnOperandStack o =>
          cases o <;> cases rhs <;> simp at h <;>
            first
            | (obtain ⟨-, hcg'⟩ := h
               subst hcg'
               exact ⟨cg2.stack, rfl, hna, hlen, hsym⟩)
            | skip
      | InAccumulator => cases rhs <;> simp at h
      | OnCpuStack => cases rhs <;> simp at h

theorem end_of_expr_spec {cg cg' : CodeGen} {out : List Instr}
    (h : cg.end_of_expr = (out, some cg')) :
    cg'.stack = [] ∧ cg'.symbols = cg.symbols := by
  unfold CodeGen.end_of_expr at h
  split at h
  case h_1 o rest heq =>
      cases rest <;> simp at h
      obtain ⟨-, hcg'⟩ := h
      subst hcg'
      exact ⟨rfl, rfl⟩
  case h_2 => simp at h
  case h_3 rest heq =>
      cases rest <;> simp at h
      obtain ⟨-, hcg'⟩ := h
      subst hcg'
      exact ⟨rfl, rfl⟩
  case h_4 heq =>
      simp at h
      obtain ⟨-, hcg'⟩ := h
      subst hcg'
      exact ⟨heq, rfl⟩

theorem noAcc_countAcc {s : List Location} (h : noAcc s = true) :
    countAcc s = 0 := by
  simp only [noAcc, List.all_eq_true] at h
  simp only [countAcc, List.countP_eq_zero]
  intro l hl
  have := h l hl
  simp at this
  simp [this]

theorem noAcc_append_acc (l r : List Location) :
    noAcc (l ++ Location.InAccumulator :: r) = false := by
  simp [noAcc, List.all_append, List.all_cons, Location.isAcc]

theorem countAcc_cons (l : Location) (t : List Location) :
    countAcc (l :: t) = countAcc t + (if l.isAcc then 1 else 0) := by
  simp [countAcc, List.countP_cons]

theorem goodStack_countAcc {s : List Location} (h : goodStack s = true) :
    countAcc s ≤ 1 := by
  induction s with
  | nil => simp [countAcc]
  | cons l t ih =>
      cases l with
      | OnOperandStack o =>
          rw [goodStack] at h
          rw [countAcc_cons]
          simpa [Location.isAcc] using ih h
      | InAccumulator =>
          rw [goodStack] at h
          rw [countAcc_cons, noAcc_countAcc h]
          simp [Location.isAcc]
      | OnCpuStack =>
          rw [goodStack] at h
          rw [countAcc_cons, noAcc_countAcc h]
          simp [Location.isAcc]

theorem goodStack_above {pre post : List Location}
    (h : goodStack (pre ++ Location.InAccumulator :: post) = true) :
    ∀ x ∈ pre, ∃ o, x = Location.OnOperandStack o := by
  induction pre with
  | nil => intro x hx; cases hx
  | cons l rest ih =>
      intro x hx
      cases l with
      | OnOperandStack o =>
          rw [List.cons_append, goodStack] at h
          cases hx with
          | head => exact ⟨o, rfl⟩
          | tail _ hx => exact ih h x hx
      | InAccumulator =>
          rw [List.cons_append, goodStack] at h
          rw [noAcc_append_acc] at h
          cases h
      | OnCpuStack =>
          rw [List.cons_append, goodStack] at h
          rw [noAcc_append_acc] at h
          cases h

/-! ### C1 -/

/-- C1 (counterexample): invariant I1 as the spec states it fails on a
reachable state.  Feeding `1 2 + 3` (a prefix of the well-formed program
`1 2 + 3 4 + *`) to a fresh generator succeeds and leaves the stack with
`InAccumulator` below the just-pushed `OnOperandStack 3` entry, so an
`InAccumulator` entry exists but is not the most recently pushed one. -/
theorem c1_counterexample :
    (runChars CodeGen.new ['1', '2', '+', '3']).2 =
      some { stack := [Location.OnOperandStack (Operand.Integer 3),
                       Location.InAccumulator], symbols := [] } ∧
    ¬ I1spec [Location.OnOperandStack (Operand.Integer 3),
              Location.InAccumulator] := by
  constructor
  · rfl
  · intro h
    have := h.2 (by simp)
    simp at this

/-- C1 (amended): the invariant the code maintains is: at most one entry
of the whole stack is `InAccumulator`, and every entry pushed more
recently than it is an `OnOperandStack` entry (the `InAccumulator` entry
need not be the very last-pushed one — operands may sit on top of it until
the next binary operation spills it).  This invariant, `goodStack`, bounds
the accumulator count by one, forces every entry above an `InAccumulator`
to be `OnOperandStack`, and holds after every successful generator
operation (`number`, `variable`, any `rvalue_binop`, `assign`,
`end_of_expr`) applied to a state satisfying it. -/
theorem c1_single_accumulator_amended :
    (∀ s : List Location, goodStack s = true → countAcc s ≤ 1) ∧
    (∀ pre post : List Location,
      goodStack (pre ++ Location.InAccumulator :: post) = true →
      ∀ x ∈ pre, ∃ o, x = Location.OnOperandStack o) ∧
    (∀ (cg : CodeGen) (n : Nat), goodStack cg.stack = true →
      goodStack (cg.number n).stack = true) ∧
    (∀ (cg : CodeGen) (v : Char), goodStack cg.stack = true →
      goodStack (cg.variable' v).stack = true) ∧
    (∀ (emit : Src → List Instr) (cg : CodeGen) (out : List Instr)
      (cg' : CodeGen), cg.rvalue_binop emit = (out, some cg') →
      goodStack cg'.stack = true) ∧
    (∀ (cg : CodeGen) (out : List Instr) (cg' : CodeGen),
      cg.assign = (out, some cg') → goodStack cg'.stack = true) ∧
    (∀ (cg : CodeGen) (out : List Instr) (cg' : CodeGen),
      cg.end_of_expr = (out, some cg') → goodStack cg'.stack = true) := by
  refine ⟨fun s => goodStack_countAcc, fun pre post => goodStack_above,
    ?_, ?_, ?_, ?_, ?_⟩
  · intro cg n h
    rw [CodeGen.number, goodStack]
    exact h
  · intro cg v h
    rw [CodeGen.variable', goodStack]
    exact h
  · intro emit cg out cg' h
    obtain ⟨rest2, hst, hna, -, -⟩ := rvalue_binop_spec h
    rw [hst, goodStack]
    exact hna
  · intro cg out cg' h
    obtain ⟨rest2, hst, hna, -, -⟩ := assign_spec h
    rw [hst, goodStack]
    exact hna
  · intro cg out cg' h
    rw [(end_of_expr_spec h).1]
    rfl

/-- C1 (witness): the amended invariant applied at a concrete state — the
very state of the counterexample: pushing the number `3` onto a stack
whose only entry is `InAccumulator` preserves `goodStack`. -/
theorem c1_witness :
    goodStack ((CodeGen.mk [Location.InAccumulator] []).number 3).stack
      = true :=
  c1_single_accumulator_amended.2.2.1
    (CodeGen.mk [Location.InAccumulator] []) 3 (by decide)

/-! ### C7 -/

/-- C7: whenever `rvalue_binop` (hence `add`, `sub`, `mul`) or `assign`
returns without a fatal error, the stack had at least two entries, the
resulting stack is one entry shorter, and its new top entry is
`InAccumulator` — the net effect "pop 2, push 1 (`InAccumulator`)". -/
theorem c7_binop_stack_effect :
    (∀ (emit : Src → List Instr) (cg : CodeGen) (out : List Instr)
      (cg' : CodeGen), cg.rvalue_binop emit = (out, some cg') →
      2 ≤ cg.stack.length ∧ cg'.stack.length + 1 = cg.stack.length ∧
        cg'.stack.head? = some Location.InAccumulator) ∧
    (∀ (cg : CodeGen) (out : List Instr) (cg' : CodeGen),
      cg.assign = (out, some cg') →
      2 ≤ cg.stack.length ∧ cg'.stack.length + 1 = cg.stack.length ∧
        cg'.stack.head? = some Location.InAccumulator) := by
  constructor
  · intro emit cg out cg' h
    obtain ⟨rest2, hst, -, hlen, -⟩ := rvalue_binop_spec h
    refine ⟨by omega, ?_, by rw [hst]; rfl⟩
    rw [hst]
    simp only [List.length_cons]
    omega
  · intro cg out cg' h
    obtain ⟨rest2, hst, -, hlen, -⟩ := assign_spec h
    refine ⟨by omega, ?_, by rw [hst]; rfl⟩
    rw [hst]
    simp only [List.length_cons]
    omega

/-- C7 (witness): the stack effect at a concrete call: `add` on the
two-entry stack `2, 1` (top first: `rhs = 2`, `lhs = 1`). -/
theorem c7_witness :
    2 ≤ (CodeGen.mk [Location.OnOperandStack (Operand.Integer 2),
          Location.OnOperandStack (Operand.Integer 1)] []).stack.length ∧
    (CodeGen.mk [Location.InAccumulator] []).stack.length + 1 =
      (CodeGen.mk [Location.OnOperandStack (Operand.Integer 2),
          Location.OnOperandStack (Operand.Integer 1)] []).stack.length ∧
    (CodeGen.mk [Location.InAccumulator] []).stack.head? =
      some Location.InAccumulator :=
  c7_binop_stack_effect.1 emitAdd
    (CodeGen.mk [Location.OnOperandStack (Operand.Integer 2),
      Location.OnOperandStack (Operand.Integer 1)] [])
    [Instr.movEaxSrc (Src.imm 1), Instr.addEax (Src.imm 2)]
    (CodeGen.mk [Location.InAccumulator] []) (by decide)

/-! ### C8 -/

/-- C8: `end_of_expr` by case on the stack: a single `OnOperandStack`
entry is loaded into the accumulator; a single `InAccumulator` entry emits
nothing; an empty stack is a no-op; a top entry of `OnCpuStack` is fatal;
and every successful call leaves the stack exactly empty. -/
theorem c8_end_of_statement_cases :
    (∀ (cg : CodeGen) (o : Operand), cg.stack = [Location.OnOperandStack o] →
      cg.end_of_expr = ([Instr.movEaxSrc o.src],
        some { cg with stack := [] })) ∧
    (∀ cg : CodeGen, cg.stack = [Location.InAccumulator] →
      cg.end_of_expr = ([], some { cg with stack := [] })) ∧
    (∀ cg : CodeGen, cg.stack = [] → cg.end_of_expr = ([], some cg)) ∧
    (∀ (cg : CodeGen) (rest : List Location),
      cg.stack = Location.OnCpuStack :: rest → (cg.end_of_expr).2 = none) ∧
    (∀ (cg : CodeGen) (out : List Instr) (cg' : CodeGen),
      cg.end_of_expr = (out, some cg') → cg'.stack = []) := by
  refine ⟨?_, ?_, ?_, ?_, ?_⟩
  · intro cg o h
    unfold CodeGen.end_of_expr
    rw [h]
  · intro cg h
    unfold CodeGen.end_of_expr
    rw [h]
  · intro cg h
    unfold CodeGen.end_of_expr
    rw [h]
  · intro cg rest h
    unfold CodeGen.end_of_expr
    rw [h]
  · intro cg out cg' h
    exact (end_of_expr_spec h).1

/-- C8 (witness): the single-operand case at a concrete state: the entry
`7` is loaded into the accumulator and the stack ends empty. -/
theorem c8_witness :
    (CodeGen.mk [Location.OnOperandStack (Operand.Integer 7)] ['x']).end_of_expr =
      ([Instr.movEaxSrc (Operand.Integer 7).src],
        some (CodeGen.mk [] ['x'])) :=
  c8_end_of_statement_cases.1
    (CodeGen.mk [Location.OnOperandStack (Operand.Integer 7)] ['x'])
    (Operand.Integer 7) rfl

theorem spill_of_noAcc {s : List Location} (h : noAcc s = true) :
    spill s = some (s, []) := by
  cases s with
  | nil => rfl
  | cons l t =>
      rw [noAcc_cons, Bool.and_eq_true] at h
      obtain ⟨hl, ht⟩ := h
      cases l with
      | OnOperandStack o => simp [spill, ht]
      | InAccumulator => simp [Location.isAcc] at hl
      | OnCpuStack => simp [spill, ht]

/-! ### C2 -/

/-- C2: in the combine case where `lhs` is `OnCpuStack` and `rhs` is
`InAccumulator`, the emitted sequence is: pop the native stack into the
scratch register, then apply the operator against the scratch register
with the accumulator as the other side.  Executing it on a machine whose
accumulator holds the `rhs` value `b` and whose native stack top holds the
spilled `lhs` value `a` yields `b - a` for `sub` — i.e. `rhs op lhs`,
operand order reversed relative to the source expression — while for the
commutative `add` and `mul` the computed value `b + a` / `b * a` still
equals `lhs op rhs`. -/
theorem c2_spilled_combine_order
    (rest : List Location) (syms : List Char) (hno : noAcc rest = true)
    (a b : Nat) (ha : a < two32) (hb : b < two32) (t : List Nat)
    (m : Machine) (hst : m.natStack = a :: t) (hax : m.eax = b) :
    CodeGen.sub ⟨Location.InAccumulator :: Location.OnCpuStack :: rest, syms⟩ =
      ([Instr.popRbx, Instr.subEax Src.ebx],
        some ⟨Location.InAccumulator :: rest, syms⟩) ∧
    execList m [Instr.popRbx, Instr.subEax Src.ebx] =
      some { m with natStack := t, ebx := a,
                    eax := (b + (two32 - a)) % two32 } ∧
    (a ≤ b → (b + (two32 - a)) % two32 = b - a) ∧
    CodeGen.add ⟨Location.InAccumulator :: Location.OnCpuStack :: rest, syms⟩ =
      ([Instr.popRbx, Instr.addEax Src.ebx],
        some ⟨Location.InAccumulator :: rest, syms⟩) ∧
    execList m [Instr.popRbx, Instr.addEax Src.ebx] =
      some { m with natStack := t, ebx := a, eax := (b + a) % two32 } ∧
    (b + a) % two32 = (a + b) % two32 ∧
    CodeGen.mul ⟨Location.InAccumulator :: Location.OnCpuStack :: rest, syms⟩ =
      ([Instr.popRbx, Instr.movEbxSrc Src.ebx, Instr.mulEbx],
        some ⟨Location.InAccumulator :: rest, syms⟩) ∧
    execList m [Instr.popRbx, Instr.movEbxSrc Src.ebx, Instr.mulEbx] =
      some { m with natStack := t, ebx := a, eax := (b * a) % two32 } ∧
    (b * a) % two32 = (a * b) % two32 := by
  have hmod : a % two32 = a := Nat.mod_eq_of_lt ha
  refine ⟨?_, ?_, ?_, ?_, ?_, ?_, ?_, ?_, ?_⟩
  · simp [CodeGen.sub, CodeGen.rvalue_binop, CodeGen.prepare_binop,
      spill_of_noAcc hno, emitSub]
  · simp [execList, execInstr, hst, Machine.read, hax, hmod]
  · intro hab
    have h1 : b + (two32 - a) = (b - a) + two32 := by omega
    rw [h1, Nat.add_mod_right, Nat.mod_eq_of_lt (by omega)]
  · simp [CodeGen.add, CodeGen.rvalue_binop, CodeGen.prepare_binop,
      spill_of_noAcc hno, emitAdd]
  · simp [execList, execInstr, hst, Machine.read, hax, hmod]
  · rw [Nat.add_comm]
  · simp [CodeGen.mul, CodeGen.rvalue_binop, CodeGen.prepare_binop,
      spill_of_noAcc hno, emitMul]
  · simp [execList, execInstr, hst, Machine.read, hax, hmod]
  · rw [Nat.mul_comm]

/-- C2 (witness): the spilled combine case at a concrete state — `lhs = 3`
spilled on the native stack, `rhs = 7` in the accumulator: `sub` emits
`pop rbx; sub eax, ebx` and executing it yields `7 - 3` (rhs minus lhs). -/
theorem c2_witness :
    CodeGen.sub ⟨[Location.InAccumulator, Location.OnCpuStack], []⟩ =
      ([Instr.popRbx, Instr.subEax Src.ebx],
        some ⟨[Location.InAccumulator], []⟩) ∧
    execList ⟨7, 0, [3], []⟩ [Instr.popRbx, Instr.subEax Src.ebx] =
      some ⟨(7 + (two32 - 3)) % two32, 3, [], []⟩ := by
  have h := c2_spilled_combine_order [] [] rfl 3 7 (by decide) (by decide)
    [] ⟨7, 0, [3], []⟩ rfl rfl
  exact ⟨h.1, h.2.1⟩

/-! ### C10 -/

/-- C10: compiling the empty input succeeds and emits exactly the four
lines `global _evaluate`, `section .text`, `_evaluate:` and the `ret`
instruction — no body instructions and no data section. -/
theorem c10_empty_program :
    compile [] [] =
      (["global _evaluate", "section .text", "_evaluate:", "\tret"],
        true) := by
  rfl

/-! ### C5 -/

/-- C5 (counterexample): an input containing two consecutive statement
separators compiles successfully — `1;;` produces a complete assembly unit
and no failure, refuting the claim that such inputs fail. -/
theorem c5_counterexample :
    compile ['1', ';', ';'] [] =
      (["global _evaluate", "section .text", "_evaluate:", "\tmov eax, 1",
        "\tret"], true) := by
  rfl

/-- C5 (amended): two consecutive separators do NOT fail: `end_of_expr` on
an empty stack is a successful no-op (the empty-statement case), so the
second of two consecutive separators compiles fine, as in `1;;`. -/
theorem c5_empty_statement_amended :
    (∀ cg : CodeGen, cg.stack = [] → cg.end_of_expr = ([], some cg)) ∧
    (compile ['1', ';', ';'] []).2 = true := by
  constructor
  · intro cg h
    unfold CodeGen.end_of_expr
    rw [h]
  · rfl

/-- C5 (witness): the empty-stack no-op applied at the fresh generator. -/
theorem c5_witness : CodeGen.new.end_of_expr = ([], some CodeGen.new) :=
  c5_empty_statement_amended.1 CodeGen.new rfl

/-! ### C6 -/

/-- C6 (counterexample): a failing run is not atomic with respect to the
emitted stream: compiling `+` fails (operator with no operands), yet its
run has already printed the three prologue lines — the emitted output of
the failing run is non-empty. -/
theorem c6_counterexample :
    compile ['+'] [] = (prologueLines, false) ∧
    prologueLines ≠ [] := by
  exact ⟨rfl, by simp [prologueLines]⟩

/-- C6 (amended): the code prints as it goes, so a failing run keeps every
line emitted before the failure point (always at least the prologue, and
any body instructions already emitted, e.g. for `12++`); what does hold is
that nothing is emitted after the failing event — `runChars` stops at the
first failing character. -/
theorem c6_partial_output_amended :
    (∀ input order : List Char,
      ∃ rest, (compile input order).1 = prologueLines ++ rest) ∧
    (∀ (cg : CodeGen) (c : Char) (cs : List Char),
      (step cg c).2 = none → runChars cg (c :: cs) = ((step cg c).1, none)) ∧
    compile ['1', '2', '+', '+'] [] =
      (["global _evaluate", "section .text", "_evaluate:", "\tmov eax, 1",
        "\tadd eax, 2"], false) := by
  refine ⟨?_, ?_, rfl⟩
  · intro input order
    unfold compile
    cases h : runChars CodeGen.new input with
    | mk out r =>
        cases r with
        | none => exact ⟨out.map Instr.render, rfl⟩
        | some cg =>
            cases h2 : cg.epilogue order with
            | mk out2 ok =>
                exact ⟨out.map Instr.render ++ out2,
                  by simp [h2, List.append_assoc]⟩
  · intro cg c cs h
    unfold runChars
    cases hs : step cg c with
    | mk o r =>
        rw [hs] at h
        simp only at h
        subst h
        rfl

/-- C6 (witness): the stop-at-failure fact applied at a concrete failing
step: `+` on a fresh generator fails, and the run emits nothing more. -/
theorem c6_witness : runChars CodeGen.new ['+', '1'] =
    ((step CodeGen.new '+').1, none) :=
  c6_partial_output_amended.2.1 CodeGen.new '+' ['1'] rfl

/-! ### C4 -/

/-- C4 (counterexample): compiling the spec's round-trip program
`x5=x3+;` does NOT succeed: the input is a single statement (no separator
after the assignment), so at the `;` the stack still holds the spilled
assignment result below the sum — the `assert_eq!(stack.len(), 0)` in
`end_of_expr` fails. -/
theorem c4_counterexample :
    (compile ['x', '5', '=', 'x', '3', '+', ';'] ['x']).2 = false ∧
    (runChars CodeGen.new ['x', '5', '=', 'x', '3', '+']).2 =
      some { stack := [Location.InAccumulator, Location.OnCpuStack],
             symbols := ['x'] } := by
  exact ⟨rfl, rfl⟩

/-- C4 (amended): with the statement separator the spec's scenario holds:
`x5=;x3+;` compiles successfully, stores `5` into `x`'s memory cell, and
the next statement reloads `x` from memory (`mov eax, [rel x]`) and
computes `5 + 3 = 8`, leaving `8` in the accumulator at the end of that
statement. -/
theorem c4_assignment_roundtrip_amended :
    compile ['x', '5', '=', ';', 'x', '3', '+', ';'] ['x'] =
      (["global _evaluate", "section .text", "_evaluate:",
        "\tmov eax, 5", "\tmov dword [rel x], eax",
        "\tmov eax, [rel x]", "\tadd eax, 3",
        "\tret", "section .data", "x: dd 0"], true) ∧
    (runChars CodeGen.new ['x', '5', '=', ';', 'x', '3', '+', ';']).1 =
      [Instr.movEaxSrc (Src.imm 5), Instr.store 'x',
       Instr.movEaxSrc (Src.mem 'x'), Instr.addEax (Src.imm 3)] ∧
    execList ⟨0, 0, [], []⟩
      [Instr.movEaxSrc (Src.imm 5), Instr.store 'x',
       Instr.movEaxSrc (Src.mem 'x'), Instr.addEax (Src.imm 3)] =
      some ⟨8, 0, [], [('x', 5)]⟩ := by
  exact ⟨rfl, rfl, rfl⟩

/-! ### Symbol-set lemmas (for C3 and C9) -/

theorem digit_not_letter {c : Char} (h : isDigitCh c = true) :
    isLetterCh c = false := by
  cases hl : isLetterCh c
  · rfl
  · exfalso
    simp only [isDigitCh, Bool.and_eq_true, decide_eq_true_eq] at h
    simp only [isLetterCh, Bool.or_eq_true, Bool.and_eq_true,
      decide_eq_true_eq] at hl
    omega

theorem step_symbols {cg cg₁ : CodeGen} {c : Char} {out : List Instr}
    (h : step cg c = (out, some cg₁)) :
    cg₁.symbols = if isLetterCh c then insertSym cg.symbols c
                  else cg.symbols := by
  unfold step at h
  split at h
  case isTrue hd =>
    rw [digit_not_letter hd]
    simp only [Bool.false_eq_true, if_false]
    simp only [Prod.mk.injEq, Option.some.injEq] at h
    rw [← h.2]
    rfl
  case isFalse hd =>
    split at h
    case isTrue hl =>
      rw [hl, if_pos rfl]
      simp only [Prod.mk.injEq, Option.some.injEq] at h
      rw [← h.2]
      rfl
    case isFalse hl =>
      rw [if_neg hl]
      split at h
      case isTrue =>
        unfold CodeGen.add at h
        obtain ⟨-, -, -, -, hsym⟩ := rvalue_binop_spec h
        exact hsym
      case isFalse =>
        split at h
        case isTrue =>
          unfold CodeGen.sub at h
          obtain ⟨-, -, -, -, hsym⟩ := rvalue_binop_spec h
          exact hsym
        case isFalse =>
          split at h
          case isTrue =>
            unfold CodeGen.mul at h
            obtain ⟨-, -, -, -, hsym⟩ := rvalue_binop_spec h
            exact hsym
          case isFalse =>
            split at h
            case isTrue =>
              exact (end_of_expr_spec h).2
            case isFalse =>
              split at h
              case isTrue =>
                obtain ⟨-, -, -, -, hsym⟩ := assign_spec h
                exact hsym
              case isFalse =>
                simp at h

theorem runChars_cons_none {cg : CodeGen} {c : Char} {o : List Instr}
    (cs : List Char) (h : step cg c = (o, none)) :
    runChars cg (c :: cs) = (o, none) := by
  rw [runChars, h]

theorem runChars_cons_some {cg cg₂ : CodeGen} {c : Char} {o : List Instr}
    (cs : List Char) (h : step cg c = (o, some cg₂)) :
    runChars cg (c :: cs) =
      (o ++ (runChars cg₂ cs).1, (runChars cg₂ cs).2) := by
  rw [runChars, h]

theorem runChars_symbols {cs : List Char} {cg cg' : CodeGen}
    {out : List Instr} (h : runChars cg cs = (out, some cg')) :
    cg'.symbols = (cs.filter isLetterCh).foldl insertSym cg.symbols := by
  induction cs generalizing cg out with
  | nil =>
      simp only [runChars, Prod.mk.injEq, Option.some.injEq] at h
      rw [← h.2]
      simp
  | cons c cs ih =>
      cases hs : step cg c with
      | mk o r =>
          cases r with
          | none =>
              rw [runChars_cons_none cs hs] at h
              simp at h
          | some cg₂ =>
              rw [runChars_cons_some cs hs] at h
              have hsnd : (runChars cg₂ cs).2 = some cg' := by
                have := congrArg Prod.snd h
                simpa using this
              have hind := @ih cg₂ ((runChars cg₂ cs).1) (by rw [← hsnd])
              rw [hind, step_symbols hs, List.filter_cons]
              by_cases hl : isLetterCh c = true
              · rw [if_pos hl, if_pos hl, List.foldl_cons]
              · rw [if_neg hl, if_neg hl]

theorem mem_insertSym {s : List Char} {a v : Char} :
    v ∈ insertSym s a ↔ v ∈ s ∨ v = a := by
  unfold insertSym
  by_cases h : a ∈ s
  · rw [if_pos h]
    constructor
    · exact Or.inl
    · rintro (hv | rfl)
      · exact hv
      · exact h
  · rw [if_neg h]
    simp

theorem insertSym_nodup {s : List Char} {a : Char} (h : s.Nodup) :
    (insertSym s a).Nodup := by
  unfold insertSym
  by_cases ha : a ∈ s
  · rw [if_pos ha]
    exact h
  · rw [if_neg ha]
    simp [List.nodup_append, h, ha]

theorem foldl_insertSym_mem {ls : List Char} {s : List Char} {v : Char} :
    v ∈ ls.foldl insertSym s ↔ v ∈ s ∨ v ∈ ls := by
  induction ls generalizing s with
  | nil => simp
  | cons a ls ih =>
      rw [List.foldl_cons, ih, mem_insertSym, List.mem_cons]
      tauto

theorem foldl_insertSym_nodup {ls s : List Char} (h : s.Nodup) :
    (ls.foldl insertSym s).Nodup := by
  induction ls generalizing s with
  | nil => exact h
  | cons a ls ih =>
      rw [List.foldl_cons]
      exact ih (insertSym_nodup h)

theorem declLine_head (a : Char) : (declLine a).data.head? = some a := rfl

theorem declLine_injective : Function.Injective declLine := by
  intro a b h
  have ha := declLine_head a
  rw [h, declLine_head] at ha
  exact (Option.some.inj ha).symm

/-! ### C3 -/

/-- C3 (counterexample): declarations need not appear in insertion order.
The program `xy+` inserts `x` then `y` (insertion order `['x', 'y']`), but
the data section is printed by iterating the Rust `HashSet`, whose order
is unspecified (randomized per process); the iteration order `['y', 'x']`
is a permutation of the set's contents and is therefore a possible run,
and it prints the declarations in the reverse of insertion order. -/
theorem c3_counterexample :
    (runChars CodeGen.new ['x', 'y', '+']).2 =
      some { stack := [Location.InAccumulator], symbols := ['x', 'y'] } ∧
    List.Perm ['y', 'x'] ['x', 'y'] ∧
    compile ['x', 'y', '+'] ['y', 'x'] =
      (["global _evaluate", "section .text", "_evaluate:",
        "\tmov eax, [rel x]", "\tadd eax, [rel y]", "\tret",
        "section .data", "y: dd 0", "x: dd 0"], true) ∧
    ["y: dd 0", "x: dd 0"] ≠ ["x: dd 0", "y: dd 0"] := by
  refine ⟨rfl, by decide, rfl, by decide⟩

/-- C3 (amended): when the symbol set is non-empty at the end, a
successful `epilogue` emits the return line, then the data-section marker
followed by exactly one zero-initialized 4-byte storage declaration per
distinct variable — one `v: dd 0` line for each symbol `v` and nothing
else — but in the unspecified `HashSet` iteration order (an arbitrary
permutation of the set's contents), not necessarily insertion order. -/
theorem c3_data_section_amended
    (cg : CodeGen) (order : List Char) (out : List Instr) (cg2 : CodeGen)
    (hrun : cg.end_of_expr = (out, some cg2))
    (hperm : List.Perm order cg2.symbols) (hnd : cg2.symbols.Nodup)
    (hne : cg2.symbols ≠ []) :
    cg.epilogue order =
      (out.map Instr.render ++ ["\tret"] ++
        ("section .data" :: order.map declLine), true) ∧
    (∀ v ∈ cg2.symbols, (order.map declLine).count (declLine v) = 1) ∧
    (∀ v : Char, v ∉ cg2.symbols →
      (order.map declLine).count (declLine v) = 0) := by
  refine ⟨?_, ?_, ?_⟩
  · have hlen : cg2.symbols.length > 0 := by
      cases h : cg2.symbols with
      | nil => exact absurd h hne
      | cons a t => simp [h]
    unfold CodeGen.epilogue
    rw [hrun]
    simp [hlen]
  · intro v hv
    rw [List.count_map_of_injective _ _ declLine_injective,
      hperm.count_eq]
    exact List.count_eq_one_of_mem hnd hv
  · intro v hv
    rw [List.count_map_of_injective _ _ declLine_injective,
      hperm.count_eq]
    exact List.count_eq_zero_of_not_mem hv

/-- C3 (witness): the amended data-section property at a concrete final
state with symbols inserted in order `x`, `y` and iterated as `y`, `x`. -/
theorem c3_witness :
    (CodeGen.mk [] ['x', 'y']).epilogue ['y', 'x'] =
      (["\tret", "section .data", "y: dd 0", "x: dd 0"], true) ∧
    (['y', 'x'].map declLine).count (declLine 'x') = 1 := by
  have h := c3_data_section_amended (CodeGen.mk [] ['x', 'y']) ['y', 'x']
    [] (CodeGen.mk [] ['x', 'y']) rfl (by decide) (by decide) (by decide)
  exact ⟨h.1, h.2.1 'x' (by decide)⟩

/-! ### C9 -/

/-- C9: inserting an already-present variable into the Symbol Set is
idempotent, and for every successfully compiled program the data section
contains exactly one storage declaration per distinct variable identifier:
for any `HashSet` iteration order (a permutation of the set's contents),
the count of `v: dd 0` among the declaration lines is `1` if `v` occurs
in the input as a variable and `0` otherwise, no matter how many times
`v` is referenced. -/
theorem c9_declaration_idempotence :
    (∀ (s : List Char) (v : Char), v ∈ s → insertSym s v = s) ∧
    (∀ (input order : List Char) (out : List Instr) (cg : CodeGen),
      runChars CodeGen.new input = (out, some cg) →
      List.Perm order cg.symbols →
      ∀ v : Char,
        (order.map declLine).count (declLine v) =
          (if v ∈ input.filter isLetterCh then 1 else 0)) := by
  constructor
  · intro s v h
    unfold insertSym
    rw [if_pos h]
  · intro input order out cg hrun hperm v
    have hsym : cg.symbols = (input.filter isLetterCh).foldl insertSym [] :=
      runChars_symbols hrun
    have hnd : cg.symbols.Nodup := by
      rw [hsym]
      exact foldl_insertSym_nodup List.nodup_nil
    have hmem : v ∈ cg.symbols ↔ v ∈ input.filter isLetterCh := by
      rw [hsym, foldl_insertSym_mem]
      simp
    rw [List.count_map_of_injective _ _ declLine_injective,
      hperm.count_eq]
    by_cases hv : v ∈ input.filter isLetterCh
    · rw [if_pos hv]
      exact List.count_eq_one_of_mem hnd (hmem.mpr hv)
    · rw [if_neg hv]
      exact List.count_eq_zero_of_not_mem (fun hc => hv (hmem.mp hc))

/-- C9 (witness): idempotence and the one-declaration property at the
concrete program `xx+`, which references `x` twice. -/
theorem c9_witness :
    insertSym ['x'] 'x' = ['x'] ∧
    (['x'].map declLine).count (declLine 'x') =
      (if 'x' ∈ (['x', 'x', '+'].filter isLetterCh) then 1 else 0) := by
  refine ⟨c9_declaration_idempotence.1 ['x'] 'x' (by decide), ?_⟩
  exact c9_declaration_idempotence.2 ['x', 'x', '+'] ['x']
    [Instr.movEaxSrc (Src.mem 'x'), Instr.addEax (Src.mem 'x')]
    (CodeGen.mk [Location.InAccumulator] ['x']) rfl (by decide) 'x'
